import Mathlib

/-!
Verification development for the YARD PEG combinator engine
(`src/trunk/cpp/yard/yard_base_grammar.hpp`).

The combinator layer is embedded as a deep `Rule` type (the header defines a
closed set of rule templates) together with a fuel-indexed interpreter
`matchR` translated clause-by-clause from the `Match` functions of the header.
`none` (fuel exhausted at every fuel) models non-termination of the C++ code;
`MOutcome.raise` models a C++ exception propagating (`throw 0` in `Finao`,
re-thrown by `Store` after `AbandonNode`); `MOutcome.undef` models undefined
behavior of the cursor contract (calling `advanceOne` at end of input).

The parser cursor itself is an external collaborator of the header (the
`ParserState_T` template parameter); it is modelled from the spec, see the
doc comments on `PState` and its operations.
-/

set_option maxHeartbeats 1600000

namespace Yard

/-- A completed parse-tree node: its label, the input offsets where it started
and finished, and its completed children (in order). -/
inductive Node where
  | mk (label : Nat) (first : Nat) (last : Nat) (children : List Node)


/-- An open node on the node-construction stack: the label and start offset it
was opened with, and the children completed so far (most recent first). -/
structure Frame where
  label : Nat
  first : Nat
  children : List Node


/-- Modelled from the spec: the parser cursor (`ParserState_T`), which is an
external collaborator of the combinator header (spec section 2 and 6).  It owns
a position over an input sequence together with the node-construction state:
a stack of open node frames (innermost first) and the completed top-level
nodes.  Input units are characters.  Per spec section 3, a saved position is
restorable "to exactly the state before any intervening match attempts,
including any node-tree mutations performed during those attempts", so the
`Iterator` snapshot taken by `GetPos` is modelled as the whole state and
`SetPos` as substituting the saved state back. -/
structure PState where
  input : List Char
  pos : Nat
  frames : List Frame
  finished : List Node


/-- Modelled from the spec: `atEnd()` holds when the cursor has no remaining
input. -/
def PState.atEnd (s : PState) : Bool := decide (s.input.length ≤ s.pos)

/-- Modelled from the spec: `advanceOne()` "moves to next input unit;
undefined if already at end" (spec section 6).  The undefined case is `none`,
which the interpreter turns into the distinguished outcome `MOutcome.undef`. -/
def advanceOne (s : PState) : Option PState :=
  if s.atEnd then none else some { s with pos := s.pos + 1 }

/-- Modelled from the spec: `openNode(label)` / `StartNode` pushes an open
node referencing the current position. -/
def startNode (L : Nat) (s : PState) : PState :=
  { s with frames := ⟨L, s.pos, []⟩ :: s.frames }

/-- Modelled from the spec: `completeNode(label)` / `CompleteNode` closes the
most recently opened still-open node, recording the consumed span and the
child nodes completed in between, attaching it to its parent (or to the list
of finished top-level nodes). -/
def completeNode (_L : Nat) (s : PState) : PState :=
  match s.frames with
  | [] => s
  | f :: rest =>
    let nd := Node.mk f.label f.first s.pos f.children.reverse
    match rest with
    | [] => { s with frames := [], finished := nd :: s.finished }
    | g :: gs => { s with frames := { g with children := nd :: g.children } :: gs }

/-- Modelled from the spec: `abandonNode(label)` / `AbandonNode` discards the
most recently opened still-open node and all its descendants (the children it
had accumulated die with the frame). -/
def abandonNode (_L : Nat) (s : PState) : PState :=
  match s.frames with
  | [] => s
  | _ :: rest => { s with frames := rest }

/-- The signature of the open-node stack: label and start offset of every
open node, innermost first.  "No half-open node" facts are stated as
preservation of this signature. -/
def frameSig (s : PState) : List (Nat × Nat) := s.frames.map (fun f => (f.label, f.first))

/-- A cursor at the start of a string, with empty node state. -/
def mkState (t : String) : PState := ⟨t.toList, 0, [], []⟩

/-- The closed set of rule combinators of `yard_base_grammar.hpp`.
`Or` and `Seq` take an ordered list of sub-rules: the header's fixed 10-arity
templates padded with `False_T` resp. `True_T` defaults are the instances
with trailing `fls` resp. `tru` elements (see `Or2` / `Seq2` below).
`starW` is the body of the `while` statement inside `Star::Match` (which
checks `AtEnd` once and then loops); it is not itself a header template.
`chr` is the single leaf: modelled from the spec, a terminal that consumes
one input unit satisfying a predicate (the header leaves terminals such as
`Literal` and `Digit` to other files, outside `src/`). -/
inductive Rule where
  | chr (p : Char → Bool)
  | tru
  | fls
  | endOfInput
  | store (label : Nat) (r : Rule)
  | finao (r : Rule)
  | atR (r : Rule)
  | notAt (r : Rule)
  | orR (rs : List Rule)
  | seq (rs : List Rule)
  | star (r : Rule)
  | starW (r : Rule)
  | plus (r : Rule)
  | opt (r : Rule)
  | repeatR (r : Rule) (k : Nat)
  | untilPast (r : Rule)

/-- Outcome of one `Match` call: `ok b s` is an ordinary return of `b` with
cursor state `s`; `raise s` is a propagating exception (state `s` at the throw
point — propagation touches neither position nor nodes, matching C++ stack
unwinding through combinators that have no catch); `undef` is undefined
behavior of the cursor contract. -/
inductive MOutcome where
  | ok (b : Bool) (s : PState)
  | raise (s : PState)
  | undef


/-- One step of the interpreter, translated clause-by-clause from the `Match`
functions of `yard_base_grammar.hpp`; `f` stands for the recursive calls.
Saving the position (`GetPos`) and restoring it (`SetPos`) is modelled by
reusing the entry state on the restore paths, per the snapshot semantics of
the spec-modelled cursor.  In the `seq`, `repeatR` and `untilPast` clauses the
single C++ `SetPos(pos)`-on-failure is realized one list element (resp. one
iteration) at a time: an inner failure is mapped at each level to `ok false`
with that level's entry state, so the outermost level returns the overall
entry state, exactly as the single C++ restore does. -/
def mstep (f : Rule → PState → Option MOutcome) : Rule → PState → Option MOutcome :=
  fun rule s =>
    match rule with
    | .chr p =>
      if s.atEnd then some (.ok false s)
      else if p (s.input.getD s.pos ' ') then some (.ok true { s with pos := s.pos + 1 })
      else some (.ok false s)
    | .tru => some (.ok true s)
    | .fls => some (.ok false s)
    | .endOfInput => some (.ok s.atEnd s)
    | .store L r =>
      match f r (startNode L s) with
      | some (.ok true t) => some (.ok true (completeNode L t))
      | some (.ok false t) => some (.ok false (abandonNode L t))
      | some (.raise t) => some (.raise (abandonNode L t))
      | other => other
    | .finao r =>
      match f r s with
      | some (.ok true t) => some (.ok true t)
      | some (.ok false t) => some (.raise t)
      | other => other
    | .atR r =>
      match f r s with
      | some (.ok true _) => some (.ok true s)
      | some (.ok false t) => some (.ok false t)
      | other => other
    | .notAt r =>
      match f r s with
      | some (.ok true _) => some (.ok false s)
      | some (.ok false t) => some (.ok true t)
      | other => other
    | .orR rs =>
      match rs with
      | [] => some (.ok false s)
      | r :: rest =>
        match f r s with
        | some (.ok true t) => some (.ok true t)
        | some (.ok false t) => f (.orR rest) t
        | other => other
    | .seq rs =>
      match rs with
      | [] => some (.ok true s)
      | r :: rest =>
        match f r s with
        | some (.ok true t) =>
          match f (.seq rest) t with
          | some (.ok true u) => some (.ok true u)
          | some (.ok false _) => some (.ok false s)
          | other => other
        | some (.ok false _) => some (.ok false s)
        | other => other
    | .star r =>
      if s.atEnd then some (.ok true s) else f (.starW r) s
    | .starW r =>
      match f r s with
      | some (.ok true t) => f (.starW r) t
      | some (.ok false t) => some (.ok true t)
      | other => other
    | .plus r =>
      match f r s with
      | some (.ok false t) => some (.ok false t)
      | some (.ok true t) =>
        match f (.star r) t with
        | some (.ok _ u) => some (.ok true u)
        | other => other
      | other => other
    | .opt r =>
      if s.atEnd then some (.ok true s)
      else
        match f r s with
        | some (.ok _ t) => some (.ok true t)
        | other => other
    | .repeatR r k =>
      match k with
      | 0 => some (.ok true s)
      | k+1 =>
        match f r s with
        | some (.ok true t) =>
          match f (.repeatR r k) t with
          | some (.ok true u) => some (.ok true u)
          | some (.ok false _) => some (.ok false s)
          | other => other
        | some (.ok false _) => some (.ok false s)
        | other => other
    | .untilPast r =>
      match f r s with
      | some (.ok true t) => some (.ok true t)
      | some (.ok false t) =>
        match advanceOne t with
        | none => some .undef
        | some u =>
          if u.atEnd then some (.ok false s)
          else
            match f (.untilPast r) u with
            | some (.ok true v) => some (.ok true v)
            | some (.ok false _) => some (.ok false s)
            | other => other
      | other => other

/-- The interpreter: `matchR n r s` runs rule `r` against cursor state `s`
with fuel `n`.  `none` means the fuel ran out; divergence of the C++ code
(e.g. `Star` over a rule that succeeds without consuming) is modelled as
`none` at every fuel.  By `matchR_mono_le` below, `some` results are stable
under adding fuel, so `matchR n r s = some o` means the C++ call terminates
with outcome `o`. -/
def matchR : Nat → Rule → PState → Option MOutcome
  | 0, _, _ => none
  | n+1, rule, s => mstep (matchR n) rule s

/-- One-step unfolding of the interpreter. -/
theorem matchR_succ (n : Nat) (rule : Rule) (s : PState) :
    matchR (n+1) rule s = mstep (matchR n) rule s := rfl

/-- The header's `Or` template instantiated with two rules: the remaining
eight template parameters default to `False_T`. -/
def Or2 (a b : Rule) : Rule := .orR ([a, b] ++ List.replicate 8 .fls)

/-- The header's `Seq` template instantiated with two rules: the remaining
eight template parameters default to `True_T`. -/
def Seq2 (a b : Rule) : Rule := .seq ([a, b] ++ List.replicate 8 .tru)

/-- `UntilAt<R> : UntilPast<At<R>>` from the header. -/
def UntilAt (r : Rule) : Rule := .untilPast (.atR r)

/-- `StoreFinao<L, R> : Store<L, Finao<R>>` from the header. -/
def StoreFinao (L : Nat) (r : Rule) : Rule := .store L (.finao r)

/-- `FinaoIf<T, U> : Seq<T, Finao<U>>` from the header. -/
def FinaoIf (t u : Rule) : Rule := Seq2 t (.finao u)

/-- `StoreIf<L, T, U> : Seq<T, StoreFinao<L, U>>` from the header. -/
def StoreIf (L : Nat) (t u : Rule) : Rule := Seq2 t (StoreFinao L u)

/-- Modelled from the spec: a single-character `Literal` terminal (the
header's text terminals live outside `src/`). -/
def CharLit (c : Char) : Rule := .chr (fun d => d = c)

/-- Modelled from the spec: the `Digit` terminal, one decimal digit. -/
def Digit : Rule := .chr (fun c => c.isDigit)

/-- Pointwise definedness order on interpreter approximations: every
`some` answer of `f` is an answer of `g`. -/
def Refines (f g : Rule → PState → Option MOutcome) : Prop :=
  ∀ r s o, f r s = some o → g r s = some o

/-- One interpreter step preserves the definedness order. -/
theorem mstep_mono {f g : Rule → PState → Option MOutcome} (hfg : Refines f g) :
    Refines (mstep f) (mstep g) := by
  intro r s o h
  cases r with
  | chr p => exact h
  | tru => exact h
  | fls => exact h
  | endOfInput => exact h
  | store L r =>
    simp only [mstep] at h ⊢
    cases hi : f r (startNode L s) with
    | none => rw [hi] at h; exact absurd h (by simp)
    | some o1 =>
      rw [hi] at h; rw [hfg _ _ _ hi]
      cases o1 with
      | ok b t => cases b <;> exact h
      | raise t => exact h
      | undef => exact h
  | finao r =>
    simp only [mstep] at h ⊢
    cases hi : f r s with
    | none => rw [hi] at h; exact absurd h (by simp)
    | some o1 =>
      rw [hi] at h; rw [hfg _ _ _ hi]
      cases o1 with
      | ok b t => cases b <;> exact h
      | raise t => exact h
      | undef => exact h
  | atR r =>
    simp only [mstep] at h ⊢
    cases hi : f r s with
    | none => rw [hi] at h; exact absurd h (by simp)
    | some o1 =>
      rw [hi] at h; rw [hfg _ _ _ hi]
      cases o1 with
      | ok b t => cases b <;> exact h
      | raise t => exact h
      | undef => exact h
  | notAt r =>
    simp only [mstep] at h ⊢
    cases hi : f r s with
    | none => rw [hi] at h; exact absurd h (by simp)
    | some o1 =>
      rw [hi] at h; rw [hfg _ _ _ hi]
      cases o1 with
      | ok b t => cases b <;> exact h
      | raise t => exact h
      | undef => exact h
  | orR rs =>
    cases rs with
    | nil => exact h
    | cons r rest =>
      simp only [mstep] at h ⊢
      cases hi : f r s with
      | none => rw [hi] at h; exact absurd h (by simp)
      | some o1 =>
        rw [hi] at h; rw [hfg _ _ _ hi]
        cases o1 with
        | ok b t =>
          cases b with
          | true => exact h
          | false => exact hfg _ _ _ h
        | raise t => exact h
        | undef => exact h
  | seq rs =>
    cases rs with
    | nil => exact h
    | cons r rest =>
      simp only [mstep] at h ⊢
      cases hi : f r s with
      | none => rw [hi] at h; exact absurd h (by simp)
      | some o1 =>
        rw [hi] at h; rw [hfg _ _ _ hi]
        cases o1 with
        | ok b t =>
          cases b with
          | true =>
            simp only [] at h ⊢
            cases hj : f (.seq rest) t with
            | none => rw [hj] at h; exact absurd h (by simp)
            | some o2 =>
              rw [hj] at h; rw [hfg _ _ _ hj]
              cases o2 with
              | ok b2 u => cases b2 <;> exact h
              | raise u => exact h
              | undef => exact h
          | false => exact h
        | raise t => exact h
        | undef => exact h
  | star r =>
    simp only [mstep] at h ⊢
    by_cases he : s.atEnd = true
    · simp only [he, if_true] at h ⊢; exact h
    · simp only [he, if_false, Bool.false_eq_true] at h ⊢
      exact hfg _ _ _ h
  | starW r =>
    simp only [mstep] at h ⊢
    cases hi : f r s with
    | none => rw [hi] at h; exact absurd h (by simp)
    | some o1 =>
      rw [hi] at h; rw [hfg _ _ _ hi]
      cases o1 with
      | ok b t =>
        cases b with
        | true => exact hfg _ _ _ h
        | false => exact h
      | raise t => exact h
      | undef => exact h
  | plus r =>
    simp only [mstep] at h ⊢
    cases hi : f r s with
    | none => rw [hi] at h; exact absurd h (by simp)
    | some o1 =>
      rw [hi] at h; rw [hfg _ _ _ hi]
      cases o1 with
      | ok b t =>
        cases b with
        | true =>
          simp only [] at h ⊢
          cases hj : f (.star r) t with
          | none => rw [hj] at h; exact absurd h (by simp)
          | some o2 =>
            rw [hj] at h; rw [hfg _ _ _ hj]
            cases o2 with
            | ok b2 u => exact h
            | raise u => exact h
            | undef => exact h
        | false => exact h
      | raise t => exact h
      | undef => exact h
  | opt r =>
    simp only [mstep] at h ⊢
    by_cases he : s.atEnd = true
    · simp only [he, if_true] at h ⊢; exact h
    · simp only [he, if_false, Bool.false_eq_true] at h ⊢
      cases hi : f r s with
      | none => rw [hi] at h; exact absurd h (by simp)
      | some o1 =>
        rw [hi] at h; rw [hfg _ _ _ hi]
        cases o1 with
        | ok b t => exact h
        | raise t => exact h
        | undef => exact h
  | repeatR r k =>
    cases k with
    | zero => exact h
    | succ k =>
      simp only [mstep] at h ⊢
      cases hi : f r s with
      | none => rw [hi] at h; exact absurd h (by simp)
      | some o1 =>
        rw [hi] at h; rw [hfg _ _ _ hi]
        cases o1 with
        | ok b t =>
          cases b with
          | true =>
            simp only [] at h ⊢
            cases hj : f (.repeatR r k) t with
            | none => rw [hj] at h; exact absurd h (by simp)
            | some o2 =>
              rw [hj] at h; rw [hfg _ _ _ hj]
              cases o2 with
              | ok b2 u => cases b2 <;> exact h
              | raise u => exact h
              | undef => exact h
          | false => exact h
        | raise t => exact h
        | undef => exact h
  | untilPast r =>
    simp only [mstep] at h ⊢
    cases hi : f r s with
    | none => rw [hi] at h; exact absurd h (by simp)
    | some o1 =>
      rw [hi] at h; rw [hfg _ _ _ hi]
      cases o1 with
      | ok b t =>
        cases b with
        | true => exact h
        | false =>
          simp only [] at h ⊢
          cases ha : advanceOne t with
          | none => rw [ha] at h; exact h
          | some u =>
            rw [ha] at h
            by_cases he : u.atEnd = true
            · simp only [he, if_true] at h ⊢; exact h
            · simp only [he, if_false, Bool.false_eq_true] at h ⊢
              cases hj : f (.untilPast r) u with
              | none => rw [hj] at h; exact absurd h (by simp)
              | some o2 =>
                rw [hj] at h; rw [hfg _ _ _ hj]
                cases o2 with
                | ok b2 u2 => cases b2 <;> exact h
                | raise u2 => exact h
                | undef => exact h
      | raise t => exact h
      | undef => exact h

/-- More fuel never changes a `some` answer (one-step version). -/
theorem matchR_mono_succ : ∀ n : Nat, Refines (matchR n) (matchR (n+1)) := by
  intro n
  induction n with
  | zero => intro r s o h; exact absurd h (by simp [matchR])
  | succ n ih => exact fun r s o h => mstep_mono ih r s o h

/-- More fuel never changes a `some` answer. -/
theorem matchR_mono_le {n m : Nat} (hnm : n ≤ m) : Refines (matchR n) (matchR m) := by
  induction hnm with
  | refl => exact fun r s o h => h
  | step _ ih => exact fun r s o h => matchR_mono_succ _ r s o (ih r s o h)

/-- Any two `some` answers of the interpreter agree, whatever the fuels. -/
theorem matchR_det {n m : Nat} {r : Rule} {s : PState} {o o2 : MOutcome}
    (h1 : matchR n r s = some o) (h2 : matchR m r s = some o2) : o = o2 := by
  rcases Nat.le_total n m with hle | hle
  · have := matchR_mono_le hle r s o h1
    rw [this] at h2; exact (Option.some.injEq _ _ ▸ h2).symm ▸ rfl
  · have := matchR_mono_le hle r s o2 h2
    rw [this] at h1; cases h1; rfl

theorem frameSig_startNode (L : Nat) (s : PState) :
    frameSig (startNode L s) = (L, s.pos) :: frameSig s := rfl

theorem abandon_start (L : Nat) (s : PState) : abandonNode L (startNode L s) = s := rfl

theorem frameSig_completeNode (L : Nat) (t : PState) :
    frameSig (completeNode L t) = (frameSig t).tail := by
  cases t with
  | mk inp pos frames fin =>
    cases frames with
    | nil => rfl
    | cons fr rest => cases rest <;> rfl

theorem frameSig_abandonNode (L : Nat) (t : PState) :
    frameSig (abandonNode L t) = (frameSig t).tail := by
  cases t with
  | mk inp pos frames fin => cases frames <;> rfl

theorem completeNode_input (L : Nat) (t : PState) : (completeNode L t).input = t.input := by
  cases t with
  | mk inp pos frames fin =>
    cases frames with
    | nil => rfl
    | cons fr rest => cases rest <;> rfl

theorem abandonNode_input (L : Nat) (t : PState) : (abandonNode L t).input = t.input := by
  cases t with
  | mk inp pos frames fin => cases frames <;> rfl

theorem advanceOne_some {t u : PState} (h : advanceOne t = some u) :
    u.input = t.input ∧ u.frames = t.frames ∧ u.pos = t.pos + 1 := by
  unfold advanceOne at h
  by_cases he : t.atEnd = true
  · rw [if_pos he] at h; exact absurd h (by simp)
  · rw [if_neg he] at h
    injection h with h2
    subst h2
    exact ⟨rfl, rfl, rfl⟩

/-- What one returned outcome guarantees relative to the entry state `s`:
ordinary failure (`ok false`) restores the entire cursor state; ordinary
success and escalation preserve the open-node stack signature and the input
(the position may move, and completed nodes may have been added). -/
def InvO (s : PState) : MOutcome → Prop
  | .ok false s' => s' = s
  | .ok true s' => frameSig s' = frameSig s ∧ s'.input = s.input
  | .raise s' => frameSig s' = frameSig s ∧ s'.input = s.input
  | .undef => True

/-- The joint engine invariant of an interpreter approximation: every answer
satisfies `InvO`, and the `Star` loop body never returns `false`. -/
def GoodF (f : Rule → PState → Option MOutcome) : Prop :=
  (∀ r s o, f r s = some o → InvO s o) ∧
  (∀ r s s', f (.starW r) s ≠ some (.ok false s'))

/-- One interpreter step preserves the joint engine invariant. -/
theorem mstep_good {f : Rule → PState → Option MOutcome} (hf : GoodF f) : GoodF (mstep f) := by
  obtain ⟨hI, hW⟩ := hf
  constructor
  · intro r s o h
    cases r with
    | chr p =>
      simp only [mstep] at h
      split_ifs at h <;> (injection h with h2; subst h2)
      · exact rfl
      · exact ⟨rfl, rfl⟩
      · exact rfl
    | tru =>
      simp only [mstep] at h
      injection h with h2; subst h2; exact ⟨rfl, rfl⟩
    | fls =>
      simp only [mstep] at h
      injection h with h2; subst h2; exact rfl
    | endOfInput =>
      simp only [mstep] at h
      cases hb : s.atEnd with
      | false => rw [hb] at h; injection h with h2; subst h2; exact rfl
      | true => rw [hb] at h; injection h with h2; subst h2; exact ⟨rfl, rfl⟩
    | store L r =>
      simp only [mstep] at h
      cases hi : f r (startNode L s) with
      | none => rw [hi] at h; exact absurd h (by simp)
      | some o1 =>
        rw [hi] at h
        have hin := hI _ _ _ hi
        cases o1 with
        | ok b t =>
          cases b with
          | true =>
            injection h with h2; subst h2
            obtain ⟨hsig, hinp⟩ := hin
            constructor
            · show frameSig (completeNode L t) = frameSig s
              rw [frameSig_completeNode, hsig, frameSig_startNode]
              rfl
            · show (completeNode L t).input = s.input
              rw [completeNode_input]; exact hinp
          | false =>
            injection h with h2; subst h2
            have ht : t = startNode L s := hin
            show abandonNode L t = s
            rw [ht]
            exact abandon_start L s
        | raise t =>
          injection h with h2; subst h2
          obtain ⟨hsig, hinp⟩ := hin
          constructor
          · show frameSig (abandonNode L t) = frameSig s
            rw [frameSig_abandonNode, hsig, frameSig_startNode]
            rfl
          · show (abandonNode L t).input = s.input
            rw [abandonNode_input]; exact hinp
        | undef => injection h with h2; subst h2; exact trivial
    | finao r =>
      simp only [mstep] at h
      cases hi : f r s with
      | none => rw [hi] at h; exact absurd h (by simp)
      | some o1 =>
        rw [hi] at h
        have hin := hI _ _ _ hi
        cases o1 with
        | ok b t =>
          cases b with
          | true => injection h with h2; subst h2; exact hin
          | false =>
            injection h with h2; subst h2
            have ht : t = s := hin
            subst ht
            exact ⟨rfl, rfl⟩
        | raise t => injection h with h2; subst h2; exact hin
        | undef => injection h with h2; subst h2; exact trivial
    | atR r =>
      simp only [mstep] at h
      cases hi : f r s with
      | none => rw [hi] at h; exact absurd h (by simp)
      | some o1 =>
        rw [hi] at h
        have hin := hI _ _ _ hi
        cases o1 with
        | ok b t =>
          cases b with
          | true => injection h with h2; subst h2; exact ⟨rfl, rfl⟩
          | false => injection h with h2; subst h2; exact hin
        | raise t => injection h with h2; subst h2; exact hin
        | undef => injection h with h2; subst h2; exact trivial
    | notAt r =>
      simp only [mstep] at h
      cases hi : f r s with
      | none => rw [hi] at h; exact absurd h (by simp)
      | some o1 =>
        rw [hi] at h
        have hin := hI _ _ _ hi
        cases o1 with
        | ok b t =>
          cases b with
          | true => injection h with h2; subst h2; exact rfl
          | false =>
            injection h with h2; subst h2
            have ht : t = s := hin
            subst ht
            exact ⟨rfl, rfl⟩
        | raise t => injection h with h2; subst h2; exact hin
        | undef => injection h with h2; subst h2; exact trivial
    | orR rs =>
      cases rs with
      | nil =>
        simp only [mstep] at h
        injection h with h2; subst h2; exact rfl
      | cons r rest =>
        simp only [mstep] at h
        cases hi : f r s with
        | none => rw [hi] at h; exact absurd h (by simp)
        | some o1 =>
          rw [hi] at h
          have hin := hI _ _ _ hi
          cases o1 with
          | ok b t =>
            cases b with
            | true => injection h with h2; subst h2; exact hin
            | false =>
              have ht : t = s := hin
              subst ht
              exact hI _ _ _ h
          | raise t => injection h with h2; subst h2; exact hin
          | undef => injection h with h2; subst h2; exact trivial
    | seq rs =>
      cases rs with
      | nil =>
        simp only [mstep] at h
        injection h with h2; subst h2; exact ⟨rfl, rfl⟩
      | cons r rest =>
        simp only [mstep] at h
        cases hi : f r s with
        | none => rw [hi] at h; exact absurd h (by simp)
        | some o1 =>
          rw [hi] at h
          have hin := hI _ _ _ hi
          cases o1 with
          | ok b t =>
            cases b with
            | true =>
              obtain ⟨hsig, hinp⟩ := hin
              simp only [] at h
              cases hj : f (.seq rest) t with
              | none => rw [hj] at h; exact absurd h (by simp)
              | some o2 =>
                rw [hj] at h
                have hin2 := hI _ _ _ hj
                cases o2 with
                | ok b2 u =>
                  cases b2 with
                  | true =>
                    injection h with h2; subst h2
                    exact ⟨hin2.1.trans hsig, hin2.2.trans hinp⟩
                  | false => injection h with h2; subst h2; exact rfl
                | raise u =>
                  injection h with h2; subst h2
                  exact ⟨hin2.1.trans hsig, hin2.2.trans hinp⟩
                | undef => injection h with h2; subst h2; exact trivial
            | false => injection h with h2; subst h2; exact rfl
          | raise t => injection h with h2; subst h2; exact hin
          | undef => injection h with h2; subst h2; exact trivial
    | star r =>
      simp only [mstep] at h
      by_cases he : s.atEnd = true
      · simp only [he, if_true] at h
        injection h with h2; subst h2; exact ⟨rfl, rfl⟩
      · simp only [he, if_false, Bool.false_eq_true] at h
        exact hI _ _ _ h
    | starW r =>
      simp only [mstep] at h
      cases hi : f r s with
      | none => rw [hi] at h; exact absurd h (by simp)
      | some o1 =>
        rw [hi] at h
        have hin := hI _ _ _ hi
        cases o1 with
        | ok b t =>
          cases b with
          | true =>
            obtain ⟨hsig, hinp⟩ := hin
            have hin2 := hI _ _ _ h
            cases o with
            | ok b2 u =>
              cases b2 with
              | true => exact ⟨hin2.1.trans hsig, hin2.2.trans hinp⟩
              | false => exact absurd h (hW _ _ _)
            | raise u => exact ⟨hin2.1.trans hsig, hin2.2.trans hinp⟩
            | undef => exact trivial
          | false =>
            injection h with h2; subst h2
            have ht : t = s := hin
            subst ht
            exact ⟨rfl, rfl⟩
        | raise t => injection h with h2; subst h2; exact hin
        | undef => injection h with h2; subst h2; exact trivial
    | plus r =>
      simp only [mstep] at h
      cases hi : f r s with
      | none => rw [hi] at h; exact absurd h (by simp)
      | some o1 =>
        rw [hi] at h
        have hin := hI _ _ _ hi
        cases o1 with
        | ok b t =>
          cases b with
          | false => injection h with h2; subst h2; exact hin
          | true =>
            obtain ⟨hsig, hinp⟩ := hin
            simp only [] at h
            cases hj : f (.star r) t with
            | none => rw [hj] at h; exact absurd h (by simp)
            | some o2 =>
              rw [hj] at h
              have hin2 := hI _ _ _ hj
              cases o2 with
              | ok b2 u =>
                injection h with h2; subst h2
                cases b2 with
                | true => exact ⟨hin2.1.trans hsig, hin2.2.trans hinp⟩
                | false =>
                  have hu : u = t := hin2
                  subst hu
                  exact ⟨hsig, hinp⟩
              | raise u =>
                injection h with h2; subst h2
                exact ⟨hin2.1.trans hsig, hin2.2.trans hinp⟩
              | undef => injection h with h2; subst h2; exact trivial
        | raise t => injection h with h2; subst h2; exact hin
        | undef => injection h with h2; subst h2; exact trivial
    | opt r =>
      simp only [mstep] at h
      by_cases he : s.atEnd = true
      · simp only [he, if_true] at h
        injection h with h2; subst h2; exact ⟨rfl, rfl⟩
      · simp only [he, if_false, Bool.false_eq_true] at h
        cases hi : f r s with
        | none => rw [hi] at h; exact absurd h (by simp)
        | some o1 =>
          rw [hi] at h
          have hin := hI _ _ _ hi
          cases o1 with
          | ok b t =>
            injection h with h2; subst h2
            cases b with
            | true => exact hin
            | false =>
              have ht : t = s := hin
              subst ht
              exact ⟨rfl, rfl⟩
          | raise t => injection h with h2; subst h2; exact hin
          | undef => injection h with h2; subst h2; exact trivial
    | repeatR r k =>
      cases k with
      | zero =>
        simp only [mstep] at h
        injection h with h2; subst h2; exact ⟨rfl, rfl⟩
      | succ k =>
        simp only [mstep] at h
        cases hi : f r s with
        | none => rw [hi] at h; exact absurd h (by simp)
        | some o1 =>
          rw [hi] at h
          have hin := hI _ _ _ hi
          cases o1 with
          | ok b t =>
            cases b with
            | true =>
              obtain ⟨hsig, hinp⟩ := hin
              simp only [] at h
              cases hj : f (.repeatR r k) t with
              | none => rw [hj] at h; exact absurd h (by simp)
              | some o2 =>
                rw [hj] at h
                have hin2 := hI _ _ _ hj
                cases o2 with
                | ok b2 u =>
                  cases b2 with
                  | true =>
                    injection h with h2; subst h2
                    exact ⟨hin2.1.trans hsig, hin2.2.trans hinp⟩
                  | false => injection h with h2; subst h2; exact rfl
                | raise u =>
                  injection h with h2; subst h2
                  exact ⟨hin2.1.trans hsig, hin2.2.trans hinp⟩
                | undef => injection h with h2; subst h2; exact trivial
            | false => injection h with h2; subst h2; exact rfl
          | raise t => injection h with h2; subst h2; exact hin
          | undef => injection h with h2; subst h2; exact trivial
    | untilPast r =>
      simp only [mstep] at h
      cases hi : f r s with
      | none => rw [hi] at h; exact absurd h (by simp)
      | some o1 =>
        rw [hi] at h
        have hin := hI _ _ _ hi
        cases o1 with
        | ok b t =>
          cases b with
          | true => injection h with h2; subst h2; exact hin
          | false =>
            have ht : t = s := hin
            simp only [] at h
            rw [ht] at h
            cases ha : advanceOne s with
            | none => rw [ha] at h; injection h with h2; subst h2; exact trivial
            | some u =>
              rw [ha] at h
              obtain ⟨hui, huf, hup⟩ := advanceOne_some ha
              by_cases he : u.atEnd = true
              · simp only [he, if_true] at h
                injection h with h2; subst h2; exact rfl
              · simp only [he, if_false, Bool.false_eq_true] at h
                have hsigu : frameSig u = frameSig s := by
                  unfold frameSig; rw [huf]
                cases hj : f (.untilPast r) u with
                | none => rw [hj] at h; exact absurd h (by simp)
                | some o2 =>
                  rw [hj] at h
                  have hin2 := hI _ _ _ hj
                  cases o2 with
                  | ok b2 v =>
                    cases b2 with
                    | true =>
                      injection h with h2; subst h2
                      exact ⟨hin2.1.trans hsigu, hin2.2.trans hui⟩
                    | false => injection h with h2; subst h2; exact rfl
                  | raise v =>
                    injection h with h2; subst h2
                    exact ⟨hin2.1.trans hsigu, hin2.2.trans hui⟩
                  | undef => injection h with h2; subst h2; exact trivial
        | raise t => injection h with h2; subst h2; exact hin
        | undef => injection h with h2; subst h2; exact trivial
  · intro r s s' h
    simp only [mstep] at h
    cases hi : f r s with
    | none => rw [hi] at h; exact absurd h (by simp)
    | some o1 =>
      rw [hi] at h
      cases o1 with
      | ok b t =>
        cases b with
        | true => exact hW _ _ _ h
        | false => exact absurd h (by simp)
      | raise t => exact absurd h (by simp)
      | undef => exact absurd h (by simp)

/-- The joint engine invariant holds at every fuel. -/
theorem matchR_good : ∀ n : Nat, GoodF (matchR n) := by
  intro n
  induction n with
  | zero =>
    constructor
    · intro r s o h; exact absurd h (by simp [matchR])
    · intro r s s' h; exact absurd h (by simp [matchR])
  | succ n ih => exact mstep_good ih

/-- Ordinary failure restores the entire cursor state. -/
theorem matchR_false_state {n : Nat} {r : Rule} {s s' : PState}
    (h : matchR n r s = some (.ok false s')) : s' = s :=
  (matchR_good n).1 r s _ h

/-- Ordinary success preserves the open-node stack signature and the input. -/
theorem matchR_true_sig {n : Nat} {r : Rule} {s s' : PState}
    (h : matchR n r s = some (.ok true s')) :
    frameSig s' = frameSig s ∧ s'.input = s.input :=
  (matchR_good n).1 r s _ h

/-- Escalation preserves the open-node stack signature and the input. -/
theorem matchR_raise_sig {n : Nat} {r : Rule} {s s' : PState}
    (h : matchR n r s = some (.raise s')) :
    frameSig s' = frameSig s ∧ s'.input = s.input :=
  (matchR_good n).1 r s _ h

/-- The `Star` loop body never returns `false`. -/
theorem matchR_starW_ne_false {n : Nat} (r : Rule) (s s' : PState) :
    matchR n (.starW r) s ≠ some (.ok false s') :=
  (matchR_good n).2 r s s'

/-- The state with the position replaced. -/
def PState.withPos (s : PState) (p : Nat) : PState := { s with pos := p }

/-- The single-unit terminal always returns an ordinary answer at fuel 1. -/
theorem chr_total (p : Char → Bool) (t : PState) :
    ∃ bo t', matchR 1 (.chr p) t = some (.ok bo t') := by
  show ∃ bo t', mstep (matchR 0) (.chr p) t = some (.ok bo t')
  simp only [mstep]
  by_cases he : t.atEnd = true
  · rw [if_pos he]; exact ⟨false, t, rfl⟩
  · rw [if_neg he]
    by_cases hp : p (t.input.getD t.pos ' ') = true
    · rw [if_pos hp]; exact ⟨true, { t with pos := t.pos + 1 }, rfl⟩
    · rw [if_neg hp]; exact ⟨false, t, rfl⟩

/-- When the single-unit terminal succeeds it consumes exactly one unit,
staying inside the input. -/
theorem chr_progress {p : Char → Bool} {n : Nat} {t t' : PState}
    (h : matchR n (.chr p) t = some (.ok true t')) :
    t.pos < t'.pos ∧ t'.pos ≤ t.input.length := by
  cases n with
  | zero => exact absurd h (by simp [matchR])
  | succ n =>
    simp only [matchR, mstep] at h
    by_cases he : t.atEnd = true
    · rw [if_pos he] at h; exact absurd h (by simp)
    · rw [if_neg he] at h
      by_cases hp : p (t.input.getD t.pos ' ') = true
      · rw [if_pos hp] at h
        injection h with h2
        injection h2 with hb hs
        subst hs
        have : ¬ (t.input.length ≤ t.pos) := by
          intro hc
          exact he (by simp [PState.atEnd, hc])
        refine ⟨Nat.lt_succ_self _, ?_⟩
        show t.pos + 1 ≤ t.input.length
        omega
      · rw [if_neg hp] at h; exact absurd h (by simp)

/-- C1 (Failure transparency): for every combinator of the engine — `Store`,
`Finao`, `True_T`, `False_T`, `EndOfInput`, `At`, `NotAt`, `Or`, `Seq`,
`Star` (and its loop body), `Plus`, `Opt`, `Repeat`, `UntilPast` (from which
`UntilAt`, `FinaoIf`, `StoreFinao`, `StoreIf` are defined), plus the
spec-modelled terminal — and every cursor, if `Match` returns `false` then
the cursor equals its entry value: same position, same open-node stack, and
no other observable difference (the whole state, parse tree included, is
restored; a failed match leaves no partial trace). -/
theorem c1_failure_transparency (n : Nat) (r : Rule) (s s' : PState)
    (h : matchR n r s = some (.ok false s')) :
    s' = s ∧ s'.pos = s.pos ∧ frameSig s' = frameSig s := by
  have he := matchR_false_state h
  exact ⟨he, by rw [he], by rw [he]⟩

/-- Witness for C1: a two-digit sequence fails on "1a" after consuming "1",
and the returned cursor is exactly the entry cursor. -/
theorem c1_witness :
    matchR 4 (.seq [Digit, Digit]) (mkState "1a") = some (.ok false (mkState "1a")) ∧
    mkState "1a" = mkState "1a" ∧
    (mkState "1a").pos = (mkState "1a").pos ∧
    frameSig (mkState "1a") = frameSig (mkState "1a") :=
  ⟨rfl, c1_failure_transparency 4 (Rule.seq [Digit, Digit]) (mkState "1a") (mkState "1a") rfl⟩

/-- C2 (Store/abandon symmetry): `Store(L,R)` opens a node labeled `L` (the
sub-rule runs from `startNode L s`); on the sub-rule's success it completes
the node and returns true, on its ordinary failure it abandons the node and
returns false with the entry state — the node is absent, nothing changed —
and on escalation from inside it abandons the node and re-raises; in every
terminating case the open-node stack signature equals the entry one, so
exactly one of {node completed, node absent} holds, never a half-open node. -/
theorem c2_store_abandon (n : Nat) (L : Nat) (r : Rule) (s : PState) :
    (∀ s', matchR n r (startNode L s) = some (.ok true s') →
      matchR (n+1) (.store L r) s = some (.ok true (completeNode L s')) ∧
      frameSig (completeNode L s') = frameSig s) ∧
    (∀ s', matchR n r (startNode L s) = some (.ok false s') →
      matchR (n+1) (.store L r) s = some (.ok false s) ∧ s' = startNode L s) ∧
    (∀ s', matchR n r (startNode L s) = some (.raise s') →
      matchR (n+1) (.store L r) s = some (.raise (abandonNode L s')) ∧
      frameSig (abandonNode L s') = frameSig s) := by
  refine ⟨?_, ?_, ?_⟩
  · intro s' h
    constructor
    · simp only [matchR, mstep]
      rw [h]
    · rw [frameSig_completeNode, (matchR_true_sig h).1, frameSig_startNode]
      rfl
  · intro s' h
    have hst : s' = startNode L s := matchR_false_state h
    refine ⟨?_, hst⟩
    simp only [matchR, mstep]
    rw [h]
    show some (MOutcome.ok false (abandonNode L s')) = some (MOutcome.ok false s)
    rw [hst, abandon_start]
  · intro s' h
    constructor
    · simp only [matchR, mstep]
      rw [h]
    · rw [frameSig_abandonNode, (matchR_raise_sig h).1, frameSig_startNode]
      rfl

/-- Witness for C2: storing a digit match on "5" completes a node; storing a
failed digit match on "x" leaves the entry state, node absent. -/
theorem c2_witness :
    (matchR 3 (.store 7 Digit) (mkState "5")
        = some (.ok true (completeNode 7 ⟨"5".toList, 1, [⟨7, 0, []⟩], []⟩)) ∧
      frameSig (completeNode 7 ⟨"5".toList, 1, [⟨7, 0, []⟩], []⟩) = frameSig (mkState "5")) ∧
    (matchR 3 (.store 7 Digit) (mkState "x") = some (.ok false (mkState "x")) ∧
      (⟨"x".toList, 0, [⟨7, 0, []⟩], []⟩ : PState) = startNode 7 (mkState "x")) :=
  ⟨(c2_store_abandon 2 7 Digit (mkState "5")).1 ⟨"5".toList, 1, [⟨7, 0, []⟩], []⟩ rfl,
   (c2_store_abandon 2 7 Digit (mkState "x")).2.1 ⟨"x".toList, 0, [⟨7, 0, []⟩], []⟩ rfl⟩

/-- C3 (Finao): `Finao(R)` returns true when `R` matches, and raises the
escalation signal instead of returning false when `R` fails; consequently
`FinaoIf(Literal "#", Plus(Digit))` against "#xy" raises escalation (not a
plain failure): the guard consumed "#" and the mandatory part then failed,
so the signal carries the cursor at offset 1. -/
theorem c3_finao (n : Nat) (r : Rule) (s s' : PState) :
    (matchR n r s = some (.ok true s') → matchR (n+1) (.finao r) s = some (.ok true s')) ∧
    (matchR n r s = some (.ok false s') → matchR (n+1) (.finao r) s = some (.raise s')) ∧
    matchR 9 (FinaoIf (CharLit '#') (.plus Digit)) (mkState "#xy")
      = some (.raise ⟨"#xy".toList, 1, [], []⟩) := by
  refine ⟨?_, ?_, rfl⟩
  · intro h
    simp only [matchR, mstep]
    rw [h]
  · intro h
    simp only [matchR, mstep]
    rw [h]

/-- Witness for C3: `Finao(Digit)` succeeds on "5" and raises on "x". -/
theorem c3_witness :
    matchR 3 (.finao Digit) (mkState "5") = some (.ok true ⟨"5".toList, 1, [], []⟩) ∧
    matchR 3 (.finao Digit) (mkState "x") = some (.raise (mkState "x")) :=
  ⟨(c3_finao 2 Digit (mkState "5") ⟨"5".toList, 1, [], []⟩).1 rfl,
   (c3_finao 2 Digit (mkState "x") (mkState "x")).2.1 rfl⟩

/-- C4 (Lookahead purity): whatever `At(R)` or `NotAt(R)` return, the cursor
comes back exactly at the entry state — on success the saved position is
forced back by `SetPos`, on failure the sub-rule restored it — and `At(R)`
succeeds precisely when `R` succeeds while `NotAt(R)` succeeds precisely when
`R` fails. -/
theorem c4_lookahead_purity (n : Nat) (r : Rule) (s : PState) :
    (∀ b s', matchR (n+1) (.atR r) s = some (.ok b s') →
      s' = s ∧ (b = true ↔ ∃ t, matchR n r s = some (.ok true t))) ∧
    (∀ b s', matchR (n+1) (.notAt r) s = some (.ok b s') →
      s' = s ∧ (b = true ↔ matchR n r s = some (.ok false s))) := by
  constructor
  · intro b s' h
    simp only [matchR, mstep] at h
    cases hi : matchR n r s with
    | none => rw [hi] at h; exact absurd h (by simp)
    | some o1 =>
      rw [hi] at h
      cases o1 with
      | ok b1 t =>
        cases b1 with
        | true =>
          injection h with h2
          injection h2 with hb hs
          subst hb; subst hs
          exact ⟨rfl, iff_of_true rfl ⟨t, rfl⟩⟩
        | false =>
          have ht : t = s := matchR_false_state hi
          injection h with h2
          injection h2 with hb hs
          subst hb; subst hs
          refine ⟨ht, ?_⟩
          constructor
          · intro hc; exact absurd hc (by simp)
          · rintro ⟨u, hu⟩
            exact absurd hu (by simp)
      | raise t => exact absurd h (by simp)
      | undef => exact absurd h (by simp)
  · intro b s' h
    simp only [matchR, mstep] at h
    cases hi : matchR n r s with
    | none => rw [hi] at h; exact absurd h (by simp)
    | some o1 =>
      rw [hi] at h
      cases o1 with
      | ok b1 t =>
        cases b1 with
        | true =>
          injection h with h2
          injection h2 with hb hs
          subst hb; subst hs
          refine ⟨rfl, ?_⟩
          constructor
          · intro hc; exact absurd hc (by simp)
          · intro hu; exact absurd hu (by simp)
        | false =>
          have ht : t = s := matchR_false_state hi
          injection h with h2
          injection h2 with hb hs
          subst hb; subst hs
          refine ⟨ht, iff_of_true rfl ?_⟩
          rw [ht]
      | raise t => exact absurd h (by simp)
      | undef => exact absurd h (by simp)

/-- Witness for C4: lookahead at a digit on "5" succeeds without moving;
negative lookahead there fails, also without moving. -/
theorem c4_witness :
    (mkState "5" = mkState "5" ∧
      (true = true ↔ ∃ t, matchR 2 Digit (mkState "5") = some (.ok true t))) ∧
    (mkState "5" = mkState "5" ∧
      (false = true ↔ matchR 2 Digit (mkState "5") = some (.ok false (mkState "5")))) :=
  ⟨(c4_lookahead_purity 2 Digit (mkState "5")).1 true (mkState "5") rfl,
   (c4_lookahead_purity 2 Digit (mkState "5")).2 false (mkState "5") rfl⟩

/-- A run of a list of rules at fuel `m`: each succeeds from the state where
the previous one stopped, so the whole run consumes the concatenation of the
individual consumptions. -/
inductive ChainAt (m : Nat) : List Rule → PState → PState → Prop
  | nil (s : PState) : ChainAt m [] s s
  | cons {r : Rule} {rs : List Rule} {s t u : PState}
      (hr : matchR m r s = some (.ok true t)) (tail : ChainAt m rs t u) :
      ChainAt m (r :: rs) s u

/-- Chains are stable under adding fuel. -/
theorem chainAt_mono {n m : Nat} (hnm : n ≤ m) :
    ∀ {rs : List Rule} {s u : PState}, ChainAt n rs s u → ChainAt m rs s u := by
  intro rs s u h
  induction h with
  | nil s => exact ChainAt.nil s
  | cons hr _ ih => exact ChainAt.cons (matchR_mono_le hnm _ _ _ hr) ih

/-- A true return of `Seq` decomposes into a left-to-right chain of
successes of its sub-rules. -/
theorem seq_true_chain (rs : List Rule) :
    ∀ (n : Nat) (s s' : PState),
      matchR n (.seq rs) s = some (.ok true s') → ChainAt n rs s s' := by
  induction rs with
  | nil =>
    intro n s s' h
    cases n with
    | zero => exact absurd h (by simp [matchR])
    | succ n =>
      simp only [matchR, mstep] at h
      injection h with h2
      injection h2 with hb hs
      subst hs
      exact ChainAt.nil s
  | cons r rest ih =>
    intro n s s' h
    cases n with
    | zero => exact absurd h (by simp [matchR])
    | succ n =>
      simp only [matchR, mstep] at h
      cases hi : matchR n r s with
      | none => rw [hi] at h; exact absurd h (by simp)
      | some o1 =>
        rw [hi] at h
        cases o1 with
        | ok b t =>
          cases b with
          | true =>
            simp only [] at h
            cases hj : matchR n (.seq rest) t with
            | none => rw [hj] at h; exact absurd h (by simp)
            | some o2 =>
              rw [hj] at h
              cases o2 with
              | ok b2 u =>
                cases b2 with
                | true =>
                  injection h with h2
                  injection h2 with hb hs
                  subst hs
                  exact ChainAt.cons (matchR_mono_succ n _ _ _ hi)
                    (chainAt_mono (Nat.le_succ n) (ih n t _ hj))
                | false => exact absurd h (by simp)
              | raise u => exact absurd h (by simp)
              | undef => exact absurd h (by simp)
          | false => exact absurd h (by simp)
        | raise t => exact absurd h (by simp)
        | undef => exact absurd h (by simp)

/-- A sub-rule failing after a successful prefix chain makes the whole `Seq`
return false with the entry state, whatever sub-rules follow the failing
one — they are never evaluated. -/
theorem seq_short_circuit (pre : List Rule) :
    ∀ (r : Rule) (rest : List Rule) (n : Nat) (s t t' : PState),
      ChainAt n pre s t →
      matchR n r t = some (.ok false t') →
      matchR (n + pre.length + 1) (.seq (pre ++ r :: rest)) s = some (.ok false s) := by
  induction pre with
  | nil =>
    intro r rest n s t t' hchain hr
    cases hchain
    simp only [List.nil_append, List.length_nil, Nat.add_zero]
    simp only [matchR, mstep]
    rw [hr]
  | cons q pre ih =>
    intro r rest n s t t' hchain hr
    rcases hchain with _ | ⟨hq, tail⟩
    rename_i t1
    have hq2 : matchR (n + pre.length + 1) q s = some (.ok true t1) :=
      matchR_mono_le (by omega) _ _ _ hq
    have hrec : matchR (n + pre.length + 1) (.seq (pre ++ r :: rest)) t1
        = some (.ok false t1) :=
      ih r rest n t1 t t' tail hr
    have harr : n + (q :: pre).length + 1 = (n + pre.length + 1) + 1 := by
      simp only [List.length_cons]
      omega
    rw [List.cons_append, harr, matchR_succ]
    simp only [mstep]
    rw [hq2]
    simp only []
    rw [hrec]

/-- C6 (Sequence atomicity): `Seq` attempts its sub-rules left to right; a
true return means they ran in order, each from where the previous one
stopped, so the consumption is exactly the concatenation of the individual
consumptions, the cursor ending after the last sub-rule; a false return
restores the position saved before the first sub-rule ran — the entire entry
state comes back, undoing all partial consumption; and the first failing
sub-rule short-circuits: the sub-rules after it never influence the result. -/
theorem c6_seq_atomicity :
    (∀ (rs : List Rule) (n : Nat) (s s' : PState),
      matchR n (.seq rs) s = some (.ok true s') → ChainAt n rs s s') ∧
    (∀ (rs : List Rule) (n : Nat) (s s' : PState),
      matchR n (.seq rs) s = some (.ok false s') → s' = s) ∧
    (∀ (pre : List Rule) (r : Rule) (rest rest2 : List Rule) (n : Nat) (s t t' : PState),
      ChainAt n pre s t →
      matchR n r t = some (.ok false t') →
      matchR (n + pre.length + 1) (.seq (pre ++ r :: rest)) s = some (.ok false s) ∧
      matchR (n + pre.length + 1) (.seq (pre ++ r :: rest2)) s = some (.ok false s)) :=
  ⟨fun rs n s s' h => seq_true_chain rs n s s' h,
   fun _ _ _ _ h => matchR_false_state h,
   fun pre r rest rest2 n s t t' hchain hr =>
     ⟨seq_short_circuit pre r rest n s t t' hchain hr,
      seq_short_circuit pre r rest2 n s t t' hchain hr⟩⟩

/-- Witness for C6: a two-digit sequence on "12" chains through both digits;
on "1a" the second digit fails and the sequence returns false with the entry
state, independently of any trailing sub-rule. -/
theorem c6_witness :
    ChainAt 4 [Digit, Digit] (mkState "12") ⟨"12".toList, 2, [], []⟩ ∧
    (matchR 4 (.seq [Digit, Digit]) (mkState "1a") = some (.ok false (mkState "1a")) ∧
     matchR 4 (.seq [Digit, Digit, .tru]) (mkState "1a") = some (.ok false (mkState "1a"))) :=
  ⟨c6_seq_atomicity.1 [Digit, Digit] 4 (mkState "12") ⟨"12".toList, 2, [], []⟩ rfl,
   c6_seq_atomicity.2.2 [Digit] Digit [] [.tru] 2 (mkState "1a")
     ⟨"1a".toList, 1, [], []⟩ ⟨"1a".toList, 1, [], []⟩
     (ChainAt.cons rfl (ChainAt.nil _)) rfl⟩

/-- If an `Or` alternation returns false, the cursor is back at the entry
state and every alternative failed, each from (and back to) that entry
state. -/
theorem orR_false_all (rs : List Rule) :
    ∀ (n : Nat) (s s' : PState),
      matchR n (.orR rs) s = some (.ok false s') →
      s' = s ∧ ∀ r ∈ rs, ∃ m, matchR m r s = some (.ok false s) := by
  induction rs with
  | nil =>
    intro n s s' h
    cases n with
    | zero => exact absurd h (by simp [matchR])
    | succ n =>
      simp only [matchR, mstep] at h
      injection h with h2
      injection h2 with hb hs
      exact ⟨hs.symm, by simp⟩
  | cons r rest ih =>
    intro n s s' h
    cases n with
    | zero => exact absurd h (by simp [matchR])
    | succ n =>
      simp only [matchR, mstep] at h
      cases hi : matchR n r s with
      | none => rw [hi] at h; exact absurd h (by simp)
      | some o1 =>
        rw [hi] at h
        cases o1 with
        | ok b t =>
          cases b with
          | true => exact absurd h (by simp)
          | false =>
            have ht : t = s := matchR_false_state hi
            simp only [] at h
            rw [ht] at h hi
            obtain ⟨hs, hall⟩ := ih n s s' h
            refine ⟨hs, ?_⟩
            intro q hq
            rcases List.mem_cons.mp hq with hq | hq
            · subst hq; exact ⟨n, hi⟩
            · exact hall q hq
        | raise t => exact absurd h (by simp)
        | undef => exact absurd h (by simp)

/-- The first succeeding alternative decides an `Or` after the failed ones
before it: the result is returned immediately, whatever alternatives follow
— they are never evaluated. -/
theorem orR_first_success (pre : List Rule) :
    ∀ (r : Rule) (rest : List Rule) (n : Nat) (s t : PState),
      (∀ q ∈ pre, matchR n q s = some (.ok false s)) →
      matchR n r s = some (.ok true t) →
      matchR (n + pre.length + 1) (.orR (pre ++ r :: rest)) s = some (.ok true t) := by
  induction pre with
  | nil =>
    intro r rest n s t hpre hr
    simp only [List.nil_append, List.length_nil, Nat.add_zero]
    simp only [matchR, mstep]
    rw [hr]
  | cons q pre ih =>
    intro r rest n s t hpre hr
    have hq2 : matchR (n + pre.length + 1) q s = some (.ok false s) :=
      matchR_mono_le (by omega) _ _ _ (hpre q (List.mem_cons_self q pre))
    have hrec : matchR (n + pre.length + 1) (.orR (pre ++ r :: rest)) s
        = some (.ok true t) :=
      ih r rest n s t (fun x hx => hpre x (List.mem_cons_of_mem q hx)) hr
    have harr : n + (q :: pre).length + 1 = (n + pre.length + 1) + 1 := by
      simp only [List.length_cons]
      omega
    rw [List.cons_append, harr, matchR_succ]
    simp only [mstep]
    rw [hq2]
    simp only []
    exact hrec

/-- C7 (Ordered-choice determinism): `Or` tries its alternatives left to
right; the first succeeding alternative returns immediately and the result
does not depend on the later alternatives (they are never evaluated: the
same result holds for any tail, so no node is opened or closed for them);
a false return means every alternative failed, each failed attempt starting
from — and restoring — the entry cursor. -/
theorem c7_or_determinism :
    (∀ (pre : List Rule) (r : Rule) (rest rest2 : List Rule) (n : Nat) (s t : PState),
      (∀ q ∈ pre, matchR n q s = some (.ok false s)) →
      matchR n r s = some (.ok true t) →
      matchR (n + pre.length + 1) (.orR (pre ++ r :: rest)) s = some (.ok true t) ∧
      matchR (n + pre.length + 1) (.orR (pre ++ r :: rest2)) s = some (.ok true t)) ∧
    (∀ (rs : List Rule) (n : Nat) (s s' : PState),
      matchR n (.orR rs) s = some (.ok false s') →
      s' = s ∧ ∀ r ∈ rs, ∃ m, matchR m r s = some (.ok false s)) :=
  ⟨fun pre r rest rest2 n s t hpre hr =>
    ⟨orR_first_success pre r rest n s t hpre hr,
     orR_first_success pre r rest2 n s t hpre hr⟩,
   fun rs n s s' h => orR_false_all rs n s s' h⟩

/-- Witness for C7: with a failing first alternative, the digit alternative
decides the choice on "5" whatever follows it; and a choice of two failing
literals returns false with every alternative having failed at the entry. -/
theorem c7_witness :
    (matchR 4 (.orR [CharLit 'a', Digit, .tru]) (mkState "5")
        = some (.ok true ⟨"5".toList, 1, [], []⟩) ∧
     matchR 4 (.orR [CharLit 'a', Digit]) (mkState "5")
        = some (.ok true ⟨"5".toList, 1, [], []⟩)) ∧
    (mkState "5" = mkState "5" ∧
      ∀ r ∈ [CharLit 'a', CharLit 'b'], ∃ m,
        matchR m r (mkState "5") = some (.ok false (mkState "5"))) :=
  ⟨c7_or_determinism.1 [CharLit 'a'] Digit [.tru] [] 2 (mkState "5") ⟨"5".toList, 1, [], []⟩
     (by
       intro q hq
       rcases List.mem_singleton.mp hq with rfl
       rfl)
     rfl,
   c7_or_determinism.2 [CharLit 'a', CharLit 'b'] 4 (mkState "5") (mkState "5") rfl⟩

/-- Greedy iteration of a rule: repeated successes of `r` lead from `s` to
`u`, where `r` fails (restoring `u`) — so `u` marks the maximal prefix
matchable by repeated application, with no repetition given back. -/
inductive StarIter (r : Rule) : PState → PState → Prop
  | stop {s : PState} (m : Nat) (h : matchR m r s = some (.ok false s)) : StarIter r s s
  | step {s t u : PState} (m : Nat) (h : matchR m r s = some (.ok true t))
      (tail : StarIter r t u) : StarIter r s u

/-- A true answer of the `Star` loop body is a greedy iteration. -/
theorem starW_true_iter :
    ∀ (n : Nat) (r : Rule) (s s' : PState) (b : Bool),
      matchR n (.starW r) s = some (.ok b s') → b = true ∧ StarIter r s s' := by
  intro n
  induction n with
  | zero => intro r s s' b h; exact absurd h (by simp [matchR])
  | succ n ih =>
    intro r s s' b h
    simp only [matchR, mstep] at h
    cases hi : matchR n r s with
    | none => rw [hi] at h; exact absurd h (by simp)
    | some o1 =>
      rw [hi] at h
      cases o1 with
      | ok b1 t =>
        cases b1 with
        | true =>
          obtain ⟨hb, hit⟩ := ih r t s' b h
          exact ⟨hb, StarIter.step n hi hit⟩
        | false =>
          have ht : t = s := matchR_false_state hi
          injection h with h2
          injection h2 with hb hs
          subst hs
          rw [ht] at hi ⊢
          exact ⟨hb.symm, StarIter.stop n hi⟩
      | raise t => exact absurd h (by simp)
      | undef => exact absurd h (by simp)

/-- The `Star(True_T)` loop body yields no answer at any fuel: the loop
never exits. -/
theorem starW_tru_none : ∀ (n : Nat) (s : PState), matchR n (.starW .tru) s = none := by
  intro n
  induction n with
  | zero => intro s; rfl
  | succ n ih =>
    intro s
    simp only [matchR, mstep]
    cases n with
    | zero => rfl
    | succ n2 =>
      rw [show matchR (n2+1) Rule.tru s = some (MOutcome.ok true s) from rfl]
      exact ih s

/-- A rule diverges on a cursor: the interpreter yields no answer at any
fuel, i.e. the C++ `Match` call never returns. -/
def DivergesOn (r : Rule) (s : PState) : Prop := ∀ n : Nat, matchR n r s = none

/-- Counterexample to C5 as stated: `Star(True_T)` on a cursor that is not at
end of input never terminates — the sub-rule always succeeds consuming
nothing, so the C++ while-loop never exits; the interpreter yields no answer
at any fuel. -/
theorem c5_counterexample : DivergesOn (.star .tru) (mkState "a") := by
  intro n
  cases n with
  | zero => rfl
  | succ n =>
    simp only [matchR, mstep]
    rw [if_neg (by decide : ¬ ((mkState "a").atEnd = true))]
    exact starW_tru_none n (mkState "a")

/-- Under totality and strict progress of the sub-rule, the `Star` loop body
terminates with a true answer. -/
theorem starW_terminates (r : Rule) (m : Nat) (inp : List Char)
    (htot : ∀ t : PState, t.input = inp → ∃ bo t', matchR m r t = some (.ok bo t'))
    (hprog : ∀ t t' : PState, t.input = inp → matchR m r t = some (.ok true t') →
      t.pos < t'.pos ∧ t'.pos ≤ t.input.length) :
    ∀ (d : Nat) (t : PState), t.input = inp → t.input.length - t.pos ≤ d →
      ∃ (N : Nat) (u : PState), matchR N (.starW r) t = some (.ok true u) := by
  intro d
  induction d with
  | zero =>
    intro t hti hd
    obtain ⟨bo, t', hm⟩ := htot t hti
    cases bo with
    | false =>
      have ht' : t' = t := matchR_false_state hm
      subst ht'
      refine ⟨m + 1, t', ?_⟩
      rw [matchR_succ]
      simp only [mstep]
      rw [hm]
    | true =>
      obtain ⟨h1, h2⟩ := hprog t t' hti hm
      omega
  | succ d ih =>
    intro t hti hd
    obtain ⟨bo, t', hm⟩ := htot t hti
    cases bo with
    | false =>
      have ht' : t' = t := matchR_false_state hm
      subst ht'
      refine ⟨m + 1, t', ?_⟩
      rw [matchR_succ]
      simp only [mstep]
      rw [hm]
    | true =>
      obtain ⟨h1, h2⟩ := hprog t t' hti hm
      have hti2 : t'.input = inp := ((matchR_true_sig hm).2).trans hti
      have hd2 : t'.input.length - t'.pos ≤ d := by
        rw [hti2]
        rw [hti] at hd h2
        omega
      obtain ⟨N, u, hN⟩ := ih t' hti2 hd2
      refine ⟨max m N + 1, u, ?_⟩
      rw [matchR_succ]
      simp only [mstep]
      rw [matchR_mono_le (le_max_left m N) _ _ _ hm]
      simp only []
      exact matchR_mono_le (le_max_right m N) _ _ _ hN

/-- C5 (corrected): whenever `Star(R).match` terminates with an ordinary
answer it returns true, and the answer is either the untouched cursor (when
already at end, the loop is skipped) or the greedy iteration of `R` — the
maximal prefix matchable by repeated application, `R` failing at the final
state; the outcome is a function of `R` and the entry cursor alone, so a
subsequent combinator failing can never cause re-evaluation with fewer
repetitions; and `Star(R).match` does terminate whenever `R` always answers
ordinarily and every success of `R` strictly advances the position without
leaving the input.  (As literally stated the claim is false: for a rule that
succeeds without consuming, e.g. `True_T`, the loop diverges — see the
counterexample.) -/
theorem c5_star_greedy (r : Rule) (s : PState) :
    (∀ (n : Nat) (b : Bool) (s' : PState),
      matchR n (.star r) s = some (.ok b s') →
      b = true ∧ (s.atEnd = true ∧ s' = s ∨ StarIter r s s')) ∧
    (∀ (n m : Nat) (o o2 : MOutcome),
      matchR n (.star r) s = some o → matchR m (.star r) s = some o2 → o = o2) ∧
    (∀ m : Nat,
      (∀ t : PState, t.input = s.input → ∃ bo t', matchR m r t = some (.ok bo t')) →
      (∀ t t' : PState, t.input = s.input → matchR m r t = some (.ok true t') →
        t.pos < t'.pos ∧ t'.pos ≤ t.input.length) →
      ∃ (N : Nat) (u : PState), matchR N (.star r) s = some (.ok true u)) := by
  refine ⟨?_, ?_, ?_⟩
  · intro n b s' h
    cases n with
    | zero => exact absurd h (by simp [matchR])
    | succ n =>
      simp only [matchR, mstep] at h
      by_cases he : s.atEnd = true
      · rw [if_pos he] at h
        injection h with h2
        injection h2 with hb hs
        subst hs
        exact ⟨hb.symm, Or.inl ⟨he, rfl⟩⟩
      · rw [if_neg he] at h
        obtain ⟨hb, hit⟩ := starW_true_iter n r s s' b h
        exact ⟨hb, Or.inr hit⟩
  · intro n m o o2 h1 h2
    exact matchR_det h1 h2
  · intro m htot hprog
    by_cases he : s.atEnd = true
    · refine ⟨1, s, ?_⟩
      show mstep (matchR 0) (.star r) s = some (.ok true s)
      simp only [mstep]
      rw [if_pos he]
    · obtain ⟨N, u, hN⟩ :=
        starW_terminates r m s.input htot hprog (s.input.length - s.pos) s rfl (le_refl _)
      refine ⟨N + 1, u, ?_⟩
      rw [matchR_succ]
      simp only [mstep]
      rw [if_neg he]
      exact hN

/-- Witness for C5: `Star(Digit)` on "12" terminates successfully — the
digit terminal always answers and strictly advances on success. -/
theorem c5_witness :
    ∃ (N : Nat) (u : PState), matchR N (.star Digit) (mkState "12") = some (.ok true u) :=
  (c5_star_greedy Digit (mkState "12")).2.2 1
    (fun t _ => chr_total (fun c => c.isDigit) t)
    (fun _ _ _ h => chr_progress h)

/-- A successful scan: the sub-rule fails at every offset `q ≤ j < q + i`
and succeeds at offset `q + i`; then `UntilPast` started at offset `q`
returns that success, having consumed up to and including what the sub-rule
consumed.  The range condition keeps the scan from hitting the end check
before offset `q + i` (when `i = 0` the very first attempt happens wherever
the cursor stands). -/
theorem untilPast_scan (i : Nat) :
    ∀ (m : Nat) (r : Rule) (s : PState) (q : Nat) (s' : PState),
      (i = 0 ∨ q + i < s.input.length) →
      (∀ j, q ≤ j → j < q + i → matchR m r (s.withPos j) = some (.ok false (s.withPos j))) →
      matchR m r (s.withPos (q + i)) = some (.ok true s') →
      matchR (m + i + 1) (.untilPast r) (s.withPos q) = some (.ok true s') := by
  induction i with
  | zero =>
    intro m r s q s' hrange hfail hsucc
    rw [Nat.add_zero] at hsucc
    rw [show m + 0 + 1 = m + 1 from rfl, matchR_succ]
    simp only [mstep]
    rw [hsucc]
  | succ i ih =>
    intro m r s q s' hrange hfail hsucc
    have hqlen : q + (i+1) < s.input.length := by
      rcases hrange with h0 | h
      · exact absurd h0 (by omega)
      · exact h
    have hfail0 : matchR m r (s.withPos q) = some (.ok false (s.withPos q)) :=
      hfail q (le_refl q) (by omega)
    rw [show m + (i+1) + 1 = (m + i + 1) + 1 from rfl, matchR_succ]
    simp only [mstep]
    rw [matchR_mono_le (by omega) _ _ _ hfail0]
    simp only []
    have hne : ¬ ((s.withPos q).atEnd = true) := by
      simp only [PState.withPos, PState.atEnd, decide_eq_true_eq]
      omega
    rw [show advanceOne (s.withPos q) = some (s.withPos (q+1)) from by
      unfold advanceOne
      rw [if_neg hne]
      rfl]
    simp only []
    have hne2 : ¬ ((s.withPos (q+1)).atEnd = true) := by
      simp only [PState.withPos, PState.atEnd, decide_eq_true_eq]
      omega
    rw [if_neg hne2]
    have hrec : matchR (m + i + 1) (.untilPast r) (s.withPos (q+1))
        = some (.ok true s') := by
      apply ih m r s (q+1) s'
      · right
        omega
      · intro j hj1 hj2
        exact hfail j (by omega) (by omega)
      · rw [show q + 1 + i = q + (i+1) from by omega]
        exact hsucc
    rw [hrec]

/-- An exhausting scan: the sub-rule fails at every offset from `q` (inside
the input) to the end; `UntilPast` started at offset `q` walks off the end,
restores the saved position and returns false. -/
theorem untilPast_exhaust (d : Nat) :
    ∀ (m : Nat) (r : Rule) (s : PState) (q : Nat),
      s.input.length - q = d →
      q < s.input.length →
      (∀ j, q ≤ j → j < s.input.length →
        matchR m r (s.withPos j) = some (.ok false (s.withPos j))) →
      matchR (m + d + 1) (.untilPast r) (s.withPos q) = some (.ok false (s.withPos q)) := by
  induction d with
  | zero =>
    intro m r s q hd hq hfail
    omega
  | succ d ih =>
    intro m r s q hd hq hfail
    have hfail0 : matchR m r (s.withPos q) = some (.ok false (s.withPos q)) :=
      hfail q (le_refl q) hq
    rw [show m + (d+1) + 1 = (m + d + 1) + 1 from rfl, matchR_succ]
    simp only [mstep]
    rw [matchR_mono_le (by omega) _ _ _ hfail0]
    simp only []
    have hne : ¬ ((s.withPos q).atEnd = true) := by
      simp only [PState.withPos, PState.atEnd, decide_eq_true_eq]
      omega
    rw [show advanceOne (s.withPos q) = some (s.withPos (q+1)) from by
      unfold advanceOne
      rw [if_neg hne]
      rfl]
    simp only []
    by_cases he : (s.withPos (q+1)).atEnd = true
    · rw [if_pos he]
    · rw [if_neg he]
      have hq1 : q + 1 < s.input.length := by
        simp only [PState.withPos, PState.atEnd, decide_eq_true_eq] at he
        omega
      have hrec : matchR (m + d + 1) (.untilPast r) (s.withPos (q+1))
          = some (.ok false (s.withPos (q+1))) := by
        apply ih m r s (q+1) (by omega) hq1
        intro j hj1 hj2
        exact hfail j (by omega) hj2
      rw [hrec]

/-- C8 (corrected): provided the cursor is not already at end of input (see
the counterexample for that corner, where `advanceOne` is invoked outside
its precondition), `UntilPast(R)` advances one input unit at a time until `R`
matches and then returns `R`'s success — the cursor ends up just past
whatever `R` consumed — and it returns false with the cursor restored to the
starting position when every offset up to the end of input makes `R` fail. -/
theorem c8_untilpast (r : Rule) (s : PState) :
    (∀ (m i : Nat) (s' : PState),
      (i = 0 ∨ s.pos + i < s.input.length) →
      (∀ j, s.pos ≤ j → j < s.pos + i →
        matchR m r (s.withPos j) = some (.ok false (s.withPos j))) →
      matchR m r (s.withPos (s.pos + i)) = some (.ok true s') →
      matchR (m + i + 1) (.untilPast r) s = some (.ok true s')) ∧
    (∀ m : Nat,
      s.pos < s.input.length →
      (∀ j, s.pos ≤ j → j < s.input.length →
        matchR m r (s.withPos j) = some (.ok false (s.withPos j))) →
      matchR (m + (s.input.length - s.pos) + 1) (.untilPast r) s = some (.ok false s)) := by
  constructor
  · intro m i s' hrange hfail hsucc
    exact untilPast_scan i m r s s.pos s' hrange hfail hsucc
  · intro m hq hfail
    exact untilPast_exhaust (s.input.length - s.pos) m r s s.pos rfl hq hfail

/-- Witness for C8: against "ab;cd", `UntilPast(Literal ";")` succeeds with
the cursor just past ";" at offset 3; against "abcd" it fails with the
cursor restored to offset 0. -/
theorem c8_witness :
    matchR 5 (.untilPast (CharLit ';')) (mkState "ab;cd")
      = some (.ok true ⟨"ab;cd".toList, 3, [], []⟩) ∧
    matchR 7 (.untilPast (CharLit ';')) (mkState "abcd")
      = some (.ok false (mkState "abcd")) :=
  ⟨(c8_untilpast (CharLit ';') (mkState "ab;cd")).1 2 2 ⟨"ab;cd".toList, 3, [], []⟩
     (Or.inr (by decide))
     (by
       intro j h1 h2
       replace h2 : j < 2 := h2
       interval_cases j <;> rfl)
     rfl,
   (c8_untilpast (CharLit ';') (mkState "abcd")).2 2 (by decide)
     (by
       intro j h1 h2
       replace h2 : j < 4 := h2
       interval_cases j <;> rfl)⟩

/-- Counterexample to C8 as stated: with the cursor already at end of the
input (here: empty input) and a sub-rule that fails there, `UntilPast` does
not return false with the cursor restored — after the failed first attempt
it invokes `GotoNext`/`advanceOne` with the cursor at end, outside that
operation's stated precondition, so the call has undefined behavior rather
than an ordinary false return. -/
theorem c8_counterexample :
    matchR 5 (.untilPast (CharLit ';')) (mkState "") = some .undef ∧
    ∀ (n : Nat) (s' : PState),
      matchR n (.untilPast (CharLit ';')) (mkState "") ≠ some (.ok false s') := by
  constructor
  · rfl
  · intro n s' h
    have hd := matchR_det h (show matchR 5 (.untilPast (CharLit ';')) (mkState "")
      = some MOutcome.undef from rfl)
    exact absurd hd (by simp)

/-- C10 (corrected): after each failed attempt of the sub-rule, `UntilPast`
advances the cursor (`GotoNext`) before checking `atEnd`, so the sub-rule is
never attempted at the end-of-input position except at the very first
attempt, when the cursor already starts at end.  Consequently
`UntilPast(EndOfInput)` returns true when invoked at end (the first attempt
succeeds on the spot) and false otherwise (every interior attempt fails and
the end check fires before any attempt at the end position); and when
`UntilPast` is invoked with the cursor at end and the sub-rule failing
there, `GotoNext` is invoked with the cursor at end — outside `advanceOne`'s
stated precondition, modelled as undefined behavior. -/
theorem c10_untilpast_end (r : Rule) (s : PState) (n : Nat) :
    (s.atEnd = true → matchR (n+2) (.untilPast .endOfInput) s = some (.ok true s)) ∧
    (s.atEnd = false →
      matchR (s.input.length - s.pos + 2) (.untilPast .endOfInput) s
        = some (.ok false s)) ∧
    (∀ s', s.atEnd = true → matchR n r s = some (.ok false s') →
      matchR (n+1) (.untilPast r) s = some .undef) := by
  refine ⟨?_, ?_, ?_⟩
  · intro he
    rw [show n + 2 = (n+1) + 1 from rfl, matchR_succ]
    simp only [mstep]
    rw [show matchR (n+1) Rule.endOfInput s = some (MOutcome.ok s.atEnd s) from rfl, he]
  · intro he
    have hq : s.pos < s.input.length := by
      simp only [PState.atEnd, decide_eq_false_iff_not] at he
      omega
    have hfail : ∀ j, s.pos ≤ j → j < s.input.length →
        matchR 1 Rule.endOfInput (s.withPos j) = some (.ok false (s.withPos j)) := by
      intro j hj1 hj2
      have hje : (s.withPos j).atEnd = false := by
        simp only [PState.withPos, PState.atEnd, decide_eq_false_iff_not]
        omega
      show mstep (matchR 0) Rule.endOfInput (s.withPos j)
        = some (MOutcome.ok false (s.withPos j))
      simp only [mstep]
      rw [hje]
    have := untilPast_exhaust (s.input.length - s.pos) 1 .endOfInput s s.pos rfl hq hfail
    rw [show s.input.length - s.pos + 2 = 1 + (s.input.length - s.pos) + 1 from by omega]
    exact this
  · intro s' he h
    have hs' : s' = s := matchR_false_state h
    rw [matchR_succ]
    simp only [mstep]
    rw [h]
    simp only []
    rw [hs']
    rw [show advanceOne s = none from by
      unfold advanceOne
      rw [if_pos he]]

/-- Counterexample to C10 as stated: `UntilPast(EndOfInput)` does not always
return false — invoked with the cursor already at end of input, the very
first attempt of `EndOfInput` happens at the end position and succeeds, so
the call returns true (which also contradicts "the sub-rule is never
attempted at the end-of-input position"). -/
theorem c10_counterexample :
    matchR 3 (.untilPast .endOfInput) (⟨"ab".toList, 2, [], []⟩ : PState)
      = some (.ok true ⟨"ab".toList, 2, [], []⟩) ∧
    ∀ (n : Nat) (s' : PState),
      matchR n (.untilPast .endOfInput) (⟨"ab".toList, 2, [], []⟩ : PState)
        ≠ some (.ok false s') := by
  constructor
  · rfl
  · intro n s' h
    have hd := matchR_det h (show matchR 3 (.untilPast .endOfInput)
        (⟨"ab".toList, 2, [], []⟩ : PState)
      = some (MOutcome.ok true ⟨"ab".toList, 2, [], []⟩) from rfl)
    exact absurd hd (by simp)

/-- Witness for C10: at end of "ab", `UntilPast(EndOfInput)` returns true on
the spot; from the start of "ab" it returns false with the cursor restored;
and `UntilPast(False_T)` invoked at end runs into the undefined `advanceOne`
call. -/
theorem c10_witness :
    matchR 3 (.untilPast .endOfInput) (⟨"ab".toList, 2, [], []⟩ : PState)
      = some (.ok true ⟨"ab".toList, 2, [], []⟩) ∧
    matchR 4 (.untilPast .endOfInput) (mkState "ab") = some (.ok false (mkState "ab")) ∧
    matchR 2 (.untilPast .fls) (⟨"ab".toList, 2, [], []⟩ : PState) = some .undef :=
  ⟨(c10_untilpast_end .fls (⟨"ab".toList, 2, [], []⟩ : PState) 1).1 rfl,
   (c10_untilpast_end .fls (mkState "ab") 1).2.1 rfl,
   (c10_untilpast_end .fls (⟨"ab".toList, 2, [], []⟩ : PState) 1).2.2
     (⟨"ab".toList, 2, [], []⟩ : PState) rfl rfl⟩

/-- A run of `True_T` padding succeeds without touching the cursor. -/
theorem seq_true_pads (j : Nat) :
    ∀ (n : Nat) (t : PState), j ≤ n →
      matchR (n+1) (.seq (List.replicate j .tru)) t = some (.ok true t) := by
  induction j with
  | zero =>
    intro n t _
    rw [matchR_succ]
    simp only [List.replicate_zero, mstep]
  | succ j ih =>
    intro n t hj
    cases n with
    | zero => omega
    | succ n =>
      rw [List.replicate_succ, matchR_succ]
      simp only [mstep]
      rw [show matchR (n+1) Rule.tru t = some (MOutcome.ok true t) from rfl]
      simp only []
      rw [ih n t (by omega)]

/-- A run of `False_T` padding fails without touching the cursor. -/
theorem or_false_pads (j : Nat) :
    ∀ (n : Nat) (t : PState), j ≤ n →
      matchR (n+1) (.orR (List.replicate j .fls)) t = some (.ok false t) := by
  induction j with
  | zero =>
    intro n t _
    rw [matchR_succ]
    simp only [List.replicate_zero, mstep]
  | succ j ih =>
    intro n t hj
    cases n with
    | zero => omega
    | succ n =>
      rw [List.replicate_succ, matchR_succ]
      simp only [mstep]
      rw [show matchR (n+1) Rule.fls t = some (MOutcome.ok false t) from rfl]
      exact ih n t (by omega)

/-- C9 (Sentinel neutrality): `True_T` matches unconditionally and consumes
nothing, `False_T` never matches and consumes nothing, and they are the
identity padding of composition: the header's two-argument `Seq(R, True_T)`
(arity 10, padded with `True_T`) terminates with exactly the outcome of `R`
alone and conversely, and likewise `Or(R, False_T)` (padded with
`False_T`). -/
theorem c9_sentinels (n : Nat) (r : Rule) (s : PState) :
    (matchR (n+1) .tru s = some (.ok true s)) ∧
    (matchR (n+1) .fls s = some (.ok false s)) ∧
    (∀ o, matchR n r s = some o → matchR (n + 10) (Seq2 r .tru) s = some o) ∧
    (∀ o, matchR n (Seq2 r .tru) s = some o → ∃ m, matchR m r s = some o) ∧
    (∀ o, matchR n r s = some o → matchR (n + 10) (Or2 r .fls) s = some o) ∧
    (∀ o, matchR n (Or2 r .fls) s = some o → ∃ m, matchR m r s = some o) := by
  refine ⟨by rw [matchR_succ]; rfl, by rw [matchR_succ]; rfl, ?_, ?_, ?_, ?_⟩
  · intro o h
    have hn : n ≠ 0 := by
      rintro rfl
      rw [show matchR 0 r s = none from rfl] at h
      exact absurd h (by simp)
    obtain ⟨n1, rfl⟩ := Nat.exists_eq_succ_of_ne_zero hn
    have h9 : matchR (n1 + 10) r s = some o := matchR_mono_le (by omega) _ _ _ h
    rw [show n1 + 1 + 10 = (n1 + 10) + 1 from by omega, matchR_succ]
    simp only [Seq2, List.cons_append, List.nil_append, mstep]
    cases o with
    | ok b t =>
      cases b with
      | true =>
        rw [h9]
        simp only []
        have hp := seq_true_pads 9 (n1 + 9) t (by omega)
        rw [show n1 + 9 + 1 = n1 + 10 from by omega] at hp
        rw [show List.replicate 9 Rule.tru = Rule.tru :: List.replicate 8 Rule.tru
          from rfl] at hp
        rw [hp]
      | false =>
        rw [h9]
        have ht : t = s := matchR_false_state h
        show some (MOutcome.ok false s) = some (MOutcome.ok false t)
        rw [ht]
    | raise t => rw [h9]
    | undef => rw [h9]
  · intro o h
    have hn : n ≠ 0 := by
      rintro rfl
      rw [show matchR 0 (Seq2 r .tru) s = none from rfl] at h
      exact absurd h (by simp)
    obtain ⟨n1, rfl⟩ := Nat.exists_eq_succ_of_ne_zero hn
    rw [matchR_succ] at h
    simp only [Seq2, List.cons_append, List.nil_append, mstep] at h
    cases hi : matchR n1 r s with
    | none => rw [hi] at h; exact absurd h (by simp)
    | some o1 =>
      rw [hi] at h
      cases o1 with
      | ok b t =>
        cases b with
        | true =>
          simp only [] at h
          cases hj : matchR n1 (.seq (.tru :: List.replicate 8 .tru)) t with
          | none => rw [hj] at h; exact absurd h (by simp)
          | some o2 =>
            rw [hj] at h
            have hp := seq_true_pads 9 (n1 + 9) t (by omega)
            rw [show List.replicate 9 Rule.tru = Rule.tru :: List.replicate 8 Rule.tru
              from rfl] at hp
            have ho2 : o2 = .ok true t := matchR_det hj hp
            subst ho2
            injection h with h2
            subst h2
            exact ⟨n1, hi⟩
        | false =>
          injection h with h2
          subst h2
          have ht : t = s := matchR_false_state hi
          rw [ht] at hi
          exact ⟨n1, hi⟩
      | raise t =>
        injection h with h2
        subst h2
        exact ⟨n1, hi⟩
      | undef =>
        injection h with h2
        subst h2
        exact ⟨n1, hi⟩
  · intro o h
    have hn : n ≠ 0 := by
      rintro rfl
      rw [show matchR 0 r s = none from rfl] at h
      exact absurd h (by simp)
    obtain ⟨n1, rfl⟩ := Nat.exists_eq_succ_of_ne_zero hn
    have h9 : matchR (n1 + 10) r s = some o := matchR_mono_le (by omega) _ _ _ h
    rw [show n1 + 1 + 10 = (n1 + 10) + 1 from by omega, matchR_succ]
    simp only [Or2, List.cons_append, List.nil_append, mstep]
    cases o with
    | ok b t =>
      cases b with
      | true => rw [h9]
      | false =>
        rw [h9]
        simp only []
        have hp := or_false_pads 9 (n1 + 9) t (by omega)
        rw [show n1 + 9 + 1 = n1 + 10 from by omega] at hp
        rw [show List.replicate 9 Rule.fls = Rule.fls :: List.replicate 8 Rule.fls
          from rfl] at hp
        exact hp
    | raise t => rw [h9]
    | undef => rw [h9]
  · intro o h
    have hn : n ≠ 0 := by
      rintro rfl
      rw [show matchR 0 (Or2 r .fls) s = none from rfl] at h
      exact absurd h (by simp)
    obtain ⟨n1, rfl⟩ := Nat.exists_eq_succ_of_ne_zero hn
    rw [matchR_succ] at h
    simp only [Or2, List.cons_append, List.nil_append, mstep] at h
    cases hi : matchR n1 r s with
    | none => rw [hi] at h; exact absurd h (by simp)
    | some o1 =>
      rw [hi] at h
      cases o1 with
      | ok b t =>
        cases b with
        | true =>
          injection h with h2
          subst h2
          exact ⟨n1, hi⟩
        | false =>
          simp only [] at h
          have hp := or_false_pads 9 (n1 + 9) t (by omega)
          rw [show List.replicate 9 Rule.fls = Rule.fls :: List.replicate 8 Rule.fls
            from rfl] at hp
          have ho : o = .ok false t := matchR_det h hp
          subst ho
          exact ⟨n1, hi⟩
      | raise t =>
        injection h with h2
        subst h2
        exact ⟨n1, hi⟩
      | undef =>
        injection h with h2
        subst h2
        exact ⟨n1, hi⟩

/-- Witness for C9: padding a digit match with the sentinels changes
nothing — both padded forms consume the digit of "5" exactly as the digit
terminal alone does. -/
theorem c9_witness :
    matchR 12 (Seq2 Digit .tru) (mkState "5") = some (.ok true ⟨"5".toList, 1, [], []⟩) ∧
    matchR 12 (Or2 Digit .fls) (mkState "5") = some (.ok true ⟨"5".toList, 1, [], []⟩) :=
  ⟨(c9_sentinels 2 Digit (mkState "5")).2.2.1 (.ok true ⟨"5".toList, 1, [], []⟩) rfl,
   (c9_sentinels 2 Digit (mkState "5")).2.2.2.2.1 (.ok true ⟨"5".toList, 1, [], []⟩) rfl⟩

end Yard
